import Mathlib

/-!
# ShoreLine: a shallow embedding of `scrape.js`

The crawler of `src/scrape.js` is embedded as follows.

* A JavaScript string is the list of its UTF-16 code units (`JSString`).
* The external collaborators (axios, cheerio, the WHATWG `URL` constructor, robots-parser and
  the case tables of the JavaScript runtime) are the fields of `World`.
* The `async` functions are cut at their `await`s: a `Task` is a continuation suspended at one
  of them, `State` holds `visitedUrls`, the suspended tasks and the logs of requests and saves,
  and `step` resumes one suspended task up to its next `await`.  Which task is resumed is left
  open, so a property of every reachable state holds for every interleaving.
-/

namespace ShoreLine

/-! ## Strings -/

/-- A JavaScript string, as the list of its UTF-16 code units. -/
abbrev JSString := List Nat

/-- UTF-16 code units of one character (a surrogate pair above the basic plane). -/
def utf16Char (c : Char) : List Nat :=
  if c.toNat < 65536 then [c.toNat]
  else [55296 + (c.toNat - 65536) / 1024, 56320 + (c.toNat - 65536) % 1024]

/-- UTF-16 code units of a string literal. -/
def utf16 (s : String) : JSString :=
  (s.toList.map utf16Char).flatten

/-- `String.prototype.startsWith`: `p` is an initial segment of `s`. -/
def startsWith (s p : JSString) : Bool :=
  p.isPrefixOf s

/-! ## The file name of a page (line 77) -/

/-- Case mappings of the JavaScript runtime for the code units from 128 on; the mapping of the
ASCII code units is fixed by `toUpperCaseUnit` and `toLowerCaseUnit`. -/
structure CaseTables where
  upper : Nat → List Nat
  lower : Nat → List Nat

/-- Code units of `a` to `z`. -/
def isLowerAZ (c : Nat) : Bool := 97 ≤ c && c ≤ 122

/-- Code units of `A` to `Z`. -/
def isUpperAZ (c : Nat) : Bool := 65 ≤ c && c ≤ 90

/-- Code units of `0` to `9`. -/
def isDigit09 (c : Nat) : Bool := 48 ≤ c && c ≤ 57

/-- `toUpperCase` of a single code unit. -/
def toUpperCaseUnit (ct : CaseTables) (c : Nat) : List Nat :=
  if c < 128 then [if isLowerAZ c then c - 32 else c] else ct.upper c

/-- `toLowerCase` of a single code unit. -/
def toLowerCaseUnit (ct : CaseTables) (c : Nat) : List Nat :=
  if c < 128 then [if isUpperAZ c then c + 32 else c] else ct.lower c

/-- `String.prototype.toLowerCase`, code unit by code unit. -/
def toLowerCase (ct : CaseTables) (s : JSString) : JSString :=
  (s.map (toLowerCaseUnit ct)).flatten

/-- ECMAScript `Canonicalize` for a regular expression with the `i` flag and without the `u`
flag: the upper-case form when it is a single code unit, except that a code unit from 128 on is
never mapped below 128. -/
def canonicalize (ct : CaseTables) (ch : Nat) : Nat :=
  match toUpperCaseUnit ct ch with
  | [cu] => if 128 ≤ ch ∧ cu < 128 then ch else cu
  | _ => ch

/-- The members of the character class `a-z0-9`. -/
def classMembers : List Nat :=
  (List.range 26).map (fun i => 97 + i) ++ (List.range 10).map (fun i => 48 + i)

/-- The code unit `ch` matches `[a-z0-9]` under the `i` flag: some member of the class has the
same canonical form. -/
def matchesClass (ct : CaseTables) (ch : Nat) : Bool :=
  classMembers.any (fun a => canonicalize ct a == canonicalize ct ch)

/-- The call `url.replace(/[^a-z0-9]/gi, '_')`: every code unit matching the negated class
becomes `_` (code unit 95). -/
def replaceNonAlnum (ct : CaseTables) (url : JSString) : JSString :=
  url.map (fun ch => if matchesClass ct ch then ch else 95)

/-- The expression `url.replace(/[^a-z0-9]/gi, '_').toLowerCase() + '.html'` of line 77. -/
def filename (ct : CaseTables) (url : JSString) : JSString :=
  toLowerCase ct (replaceNonAlnum ct url) ++ utf16 ".html"

/-- Code units of `[A-Za-z0-9]`. -/
def isAlnum (c : Nat) : Bool := isLowerAZ c || isUpperAZ c || isDigit09 c

/-- Lower-case form of an ASCII letter, any other code unit unchanged. -/
def asciiLower (c : Nat) : Nat := if isUpperAZ c then c + 32 else c

/-- The key of one character as the specification words it: a character of `[A-Za-z0-9]` is
replaced by its lower-case form, any other character by `_`. -/
def specKeyUnit (c : Nat) : Nat := if isAlnum c then asciiLower c else 95

/-- The key of a URL as the specification words it, the fixed extension appended. -/
def specKey (u : JSString) : JSString := u.map specKeyUnit ++ utf16 ".html"

/-- Code units allowed in the stem of a key: `[a-z0-9_]`. -/
def isKeyUnit (c : Nat) : Bool := isLowerAZ c || isDigit09 c || c == 95

/-- Two code units yield the same key character: both are outside `[A-Za-z0-9]`, or both are
inside and equal up to ASCII case. -/
def SameKeyUnit (a b : Nat) : Prop :=
  (isAlnum a = false ∧ isAlnum b = false) ∨
  (isAlnum a = true ∧ isAlnum b = true ∧ asciiLower a = asciiLower b)

/-! ## The html directory (lines 17-20, 48-50) -/

/-- The `html` directory: file names with their content. -/
abbrev FileSystem := List (JSString × JSString)

/-- The function `saveHTML(filename, content)`: `fs.writeFileSync` creates the file or replaces
its content.  The write is taken to succeed. -/
def saveHTML (dir : FileSystem) (name content : JSString) : FileSystem :=
  dir.filter (fun e => decide (e.1 ≠ name)) ++ [(name, content)]

/-- Content of the file `name` in the directory. -/
def readFile (dir : FileSystem) (name : JSString) : Option JSString :=
  (dir.find? (fun e => decide (e.1 = name))).map (fun e => e.2)

/-! ## The robots rules (lines 25-44) -/

/-- The object returned by `robotsParser`: `isAllowed(url, ua)` answers `true`, `false` or
`undefined` (`none`). -/
structure RobotRules where
  isAllowed : JSString → JSString → Option Bool

/-- The external collaborators of the script. -/
structure World where
  /-- The constant `baseUrl` of line 9. -/
  baseUrl : JSString
  /-- Case tables of the runtime, used by the file name of line 77. -/
  caseTables : CaseTables
  /-- The call `axios.get(url)`: `response.data`, or `none` when the promise rejects (network
  error, status outside 2xx). -/
  get : JSString → Option JSString
  /-- The expression `new URL(input, base).href`, `none` when the constructor throws. -/
  resolve : JSString → JSString → Option JSString
  /-- The `href` attribute of every `a` element of `cheerio.load(html)`, in document order, as
  the `URL` constructor reads it. -/
  hrefs : JSString → List JSString
  /-- The call `robotsParser(robotsUrl, data)`, `none` when it throws. -/
  robotsParser : JSString → JSString → Option RobotRules

/-- The constant `userAgent` of line 41. -/
def userAgent : JSString := utf16 "ShoreLine/1.0 (+http://example.com/bot-info)"

/-- The function `isUrlAllowed(robotRules, targetUrl)`: the JavaScript value it resolves to,
`none` for `undefined`. -/
def isUrlAllowed (robotRules : Option RobotRules) (targetUrl : JSString) : Option Bool :=
  match robotRules with
  | none => some true
  | some r => r.isAllowed targetUrl userAgent

/-- Truthiness of the value of `isUrlAllowed`, as tested at lines 59 and 69. -/
def truthy : Option Bool → Bool
  | some true => true
  | _ => false

/-- An HTTP request issued by the script: its URL and whether `axios.get` was called inside
`limiter.schedule`. -/
structure Request where
  url : JSString
  viaLimiter : Bool
deriving DecidableEq

/-- The function `loadRobotsTxt(baseUrl)`: the rules or `null`, with the requests it issues.
Whatever is thrown inside the `try` block yields `null`. -/
def loadRobotsTxt (w : World) (baseUrl : JSString) : Option RobotRules × List Request :=
  match w.resolve (utf16 "/robots.txt") baseUrl with
  | none => (none, [])
  | some robotsUrl =>
    match w.get robotsUrl with
    | none => (none, [⟨robotsUrl, false⟩])
    | some data => (w.robotsParser robotsUrl data, [⟨robotsUrl, false⟩])

/-! ## The crawl (lines 56-92) -/

/-- A continuation suspended at an `await`. -/
inductive Task where
  /-- The callback of `processLinks` at `await isUrlAllowed(robotRules, foundUrl)` (line 59). -/
  | linkCheck (foundUrl : JSString)
  /-- The function `scrapeWebpage` at `await isUrlAllowed(robotRules, url)` (line 69); `root`
  marks the call made by `startScraping`. -/
  | scrape (url : JSString) (root : Bool)
  /-- The function `scrapeWebpage` at `await limiter.schedule(...)` (line 72): the job is queued
  in the limiter or in flight.  The request is logged by the step that resumes the continuation
  with its outcome; issuing it changes nothing else in the state. -/
  | fetch (url : JSString) (root : Bool)
deriving DecidableEq

/-- The promise of `startScraping`. -/
inductive Outcome where
  | pending
  | completed
  | rejected
deriving DecidableEq

/-- State of a run. -/
structure State where
  /-- The set `visitedUrls`, in insertion order. -/
  visitedUrls : List JSString
  /-- The suspended continuations. -/
  tasks : List Task
  /-- Every request issued so far. -/
  requests : List Request
  /-- The files written to the `html` directory during the run. -/
  files : FileSystem
  /-- The URLs for which `saveHTML` was called, in call order. -/
  saved : List JSString
  /-- The promise of `startScraping`. -/
  main : Outcome
  /-- Number of promises rejected with nobody awaiting them. -/
  unhandled : Nat

/-- The callback of `processLinks` for one `a` element, up to its first `await`: the task it
suspends as, if it gets that far. -/
def linkCallback (w : World) (visitedUrls : List JSString) (currentUrl href : JSString) :
    Option Task :=
  match w.resolve href currentUrl with
  | none => none
  | some foundUrl =>
    if startsWith foundUrl w.baseUrl = true ∧ foundUrl ∉ visitedUrls then
      some (Task.linkCheck foundUrl)
    else none

/-- The function `processLinks($, currentUrl, robotRules)`: `each` runs the callback of every
`a` element up to its first `await`; the callbacks left suspended. -/
def processLinks (w : World) (visitedUrls : List JSString) (html currentUrl : JSString) :
    List Task :=
  (w.hrefs html).filterMap (linkCallback w visitedUrls currentUrl)

/-- Number of callbacks of `processLinks` rejected because the `URL` constructor throws. -/
def processLinksThrows (w : World) (html currentUrl : JSString) : Nat :=
  ((w.hrefs html).filter (fun href => (w.resolve href currentUrl).isNone)).length

/-- The callback of `processLinks` resumed at line 59 with the value of `isUrlAllowed`: when it
is truthy, line 60 calls `scrapeWebpage`, which runs up to its first `await`. -/
def linkCallbackResumed (robotRules : Option RobotRules) (s : State) (foundUrl : JSString) :
    State :=
  if truthy (isUrlAllowed robotRules foundUrl) = true then
    { s with tasks := s.tasks ++ [Task.scrape foundUrl false] }
  else s

/-- The function `scrapeWebpage(url, robotRules)` resumed at line 69 with the value of
`isUrlAllowed`, up to the `await` of line 72: it returns, or puts `url` into `visitedUrls` and
hands the request to the limiter. -/
def scrapeWebpage (robotRules : Option RobotRules) (s : State) (url : JSString) (root : Bool) :
    State :=
  if truthy (isUrlAllowed robotRules url) = true ∧ url ∉ s.visitedUrls then
    { s with visitedUrls := s.visitedUrls ++ [url], tasks := s.tasks ++ [Task.fetch url root] }
  else
    { s with main := if root = true then Outcome.completed else s.main }

/-- The function `scrapeWebpage` resumed at line 72 with the outcome of the request the limiter
ran: the promise rejects, or lines 73-81 save the page and start the callbacks of
`processLinks`.  The `await processLinks(...)` of line 81 and the return that follows change
nothing but the promise of the caller, so the promise of `startScraping` is settled here when
the call is the one for the seed. -/
def scrapeWebpageFetched (w : World) (s : State) (url : JSString) (root : Bool) : State :=
  match w.get url with
  | none =>
    { s with requests := s.requests ++ [⟨url, true⟩],
             main := if root = true then Outcome.rejected else s.main,
             unhandled := s.unhandled + 1 }
  | some html =>
    { s with requests := s.requests ++ [⟨url, true⟩],
             files := saveHTML s.files (filename w.caseTables url) html,
             saved := s.saved ++ [url],
             tasks := s.tasks ++ processLinks w s.visitedUrls html url,
             main := if root = true then Outcome.completed else s.main,
             unhandled := s.unhandled + processLinksThrows w html url }

/-- Resuming the continuation `t` in state `s` (from which `t` is already removed), up to the
next `await`.  A rejection nobody awaits (a failed fetch of a found URL, a throwing `URL`
constructor, the rejected promise of line 92) is counted and the run goes on; what the host
does with unhandled rejections is not part of the model. -/
def resume (w : World) (robotRules : Option RobotRules) (s : State) : Task → State
  | Task.linkCheck foundUrl => linkCallbackResumed robotRules s foundUrl
  | Task.scrape url root => scrapeWebpage robotRules s url root
  | Task.fetch url root => scrapeWebpageFetched w s url root

/-- One step of the event loop: the `i`-th suspended continuation is resumed. -/
def step (w : World) (robotRules : Option RobotRules) (s : State) (i : Nat) : Option State :=
  match s.tasks.get? i with
  | none => none
  | some t => some (resume w robotRules { s with tasks := s.tasks.eraseIdx i } t)

/-- The function `startScraping(baseUrl)` up to the first `await` of `scrapeWebpage`: the rules
loaded, and the state in which the call for the seed is suspended at line 69. -/
def startScraping (w : World) (baseUrl : JSString) : Option RobotRules × State :=
  ((loadRobotsTxt w baseUrl).1,
    { visitedUrls := [], tasks := [Task.scrape baseUrl true],
      requests := (loadRobotsTxt w baseUrl).2, files := [], saved := [],
      main := Outcome.pending, unhandled := 0 })

/-- The rules of the run started at line 92. -/
def runRules (w : World) : Option RobotRules := (startScraping w w.baseUrl).1

/-- The state in which line 92 leaves the run at its first page-level `await`. -/
def initState (w : World) : State := (startScraping w w.baseUrl).2

/-- The states a run can be in, whatever continuation the event loop resumes next. -/
inductive Reachable (w : World) : State → Prop where
  | init : Reachable w (initState w)
  | step {s s' : State} (i : Nat) : Reachable w s → step w (runRules w) s i = some s' →
      Reachable w s'

/-- The run in which the event loop resumes the listed continuations in turn. -/
def exec (w : World) (robotRules : Option RobotRules) (s : State) : List Nat → Option State
  | [] => some s
  | i :: sched =>
    match step w robotRules s i with
    | none => none
    | some s' => exec w robotRules s' sched

/-- The run in which the oldest suspended continuation is resumed first, for at most `fuel`
steps. -/
def crawl (w : World) (robotRules : Option RobotRules) : Nat → State → State
  | 0, s => s
  | fuel + 1, s =>
    match step w robotRules s 0 with
    | none => s
    | some s' => crawl w robotRules fuel s'

/-- The URLs of the requests issued from inside `limiter.schedule`, in order. -/
def pageUrls (requests : List Request) : List JSString :=
  (requests.filter (fun r => r.viaLimiter)).map (fun r => r.url)

/-- The URLs requested at line 72, in order. -/
def pageFetches (s : State) : List JSString :=
  pageUrls s.requests

/-- The URL a suspended continuation is about. -/
def Task.url : Task → JSString
  | Task.linkCheck foundUrl => foundUrl
  | Task.scrape url _ => url
  | Task.fetch url _ => url

/-- The continuation belongs to the call of `scrapeWebpage` made by `startScraping`. -/
def Task.isRoot : Task → Bool
  | Task.linkCheck _ => false
  | Task.scrape _ root => root
  | Task.fetch _ root => root

/-- The URLs of the jobs waiting in the limiter. -/
def fetchUrls (ts : List Task) : List JSString :=
  ts.filterMap (fun t => match t with
    | Task.fetch url _ => some url
    | _ => none)

/-- The link graph of the crawl: the seed when the rules allow it, and every URL that an `a`
element of a successfully fetched page of the graph resolves to, when it starts with `baseUrl`
and the rules allow it. -/
inductive Crawlable (w : World) : JSString → Prop where
  | seed : truthy (isUrlAllowed (runRules w) w.baseUrl) = true → Crawlable w w.baseUrl
  | link {u v html href : JSString} : Crawlable w u → w.get u = some html →
      href ∈ w.hrefs html → w.resolve href u = some v → startsWith v w.baseUrl = true →
      truthy (isUrlAllowed (runRules w) v) = true → Crawlable w v

/-- The page of `u` was fetched successfully and one of its `a` elements resolves to `v`. -/
def Link (w : World) (u v : JSString) : Prop :=
  ∃ html href, w.get u = some html ∧ href ∈ w.hrefs html ∧ w.resolve href u = some v

/-- The URL `v` needs no further attention or is being attended to: the rules reject it, it is
in `visitedUrls`, or a continuation about it is suspended before the visited check. -/
def Covered (w : World) (visitedUrls : List JSString) (tasks : List Task) (v : JSString) : Prop :=
  truthy (isUrlAllowed (runRules w) v) = false ∨ v ∈ visitedUrls ∨
    Task.linkCheck v ∈ tasks ∨ ∃ r, Task.scrape v r ∈ tasks

/-- The invariant of the run. -/
structure Inv (w : World) (s : State) : Prop where
  nodup : s.visitedUrls.Nodup
  perm : (fetchUrls s.tasks ++ pageFetches s).Perm s.visitedUrls
  visited : ∀ u ∈ s.visitedUrls, Crawlable w u
  cand : ∀ t ∈ s.tasks, startsWith t.url w.baseUrl = true ∧
    (truthy (isUrlAllowed (runRules w) t.url) = true → Crawlable w t.url)
  saved : s.saved = (pageFetches s).filter (fun u => (w.get u).isSome)
  links : ∀ u ∈ pageFetches s, ∀ v, Link w u v → startsWith v w.baseUrl = true →
    Covered w s.visitedUrls s.tasks v
  seed : Covered w s.visitedUrls s.tasks w.baseUrl
  rootCount : (s.tasks.filter Task.isRoot).length = if s.main = Outcome.pending then 1 else 0
  rootUrl : ∀ t ∈ s.tasks, t.isRoot = true → t.url = w.baseUrl
  rej : s.main = Outcome.rejected → w.get w.baseUrl = none ∧ w.baseUrl ∈ pageFetches s
  files : ∀ e ∈ s.files, ∃ u ∈ s.saved, e.1 = filename w.caseTables u ∧ w.get u = some e.2
  robots : ∀ r ∈ s.requests, r.viaLimiter = false → r ∈ (loadRobotsTxt w w.baseUrl).2
  fileKeys : (s.files.map Prod.fst).Nodup
  fileAll : ∀ u ∈ s.saved, filename w.caseTables u ∈ s.files.map Prod.fst

/-- Number of times the URL `u` occurs in a log. -/
def occurrences (u : JSString) (log : List JSString) : Nat :=
  (log.filter (fun x => decide (x = u))).length

/-! ## Finite link graphs and the measure of a run -/

/-- The list `U` holds the link graph: the seed, and with every member each URL that an `a`
element of its page resolves to, when that URL starts with `baseUrl` and the rules allow it. -/
def Closed (w : World) (U : List JSString) : Prop :=
  w.baseUrl ∈ U ∧
  ∀ u ∈ U, ∀ html ∈ w.get u, ∀ href ∈ w.hrefs html, ∀ v ∈ w.resolve href u,
    startsWith v w.baseUrl = true → truthy (isUrlAllowed (runRules w) v) = true → v ∈ U

instance (w : World) (U : List JSString) : Decidable (Closed w U) := by
  unfold Closed
  infer_instance

/-- Number of `a` elements of the page of `u`, zero when the fetch fails. -/
def linkCount (w : World) (u : JSString) : Nat :=
  match w.get u with
  | none => 0
  | some html => (w.hrefs html).length

/-- Number of steps a suspended continuation can still cause by itself. -/
def Task.weight (w : World) : Task → Nat
  | Task.linkCheck _ => 2
  | Task.scrape _ _ => 1
  | Task.fetch url _ => 1 + 2 * linkCount w url

/-- Total weight of the suspended continuations. -/
def tasksWeight (w : World) (ts : List Task) : Nat :=
  (ts.map (Task.weight w)).sum

/-- Steps reserved for the URLs of `U` that are not yet in `visitedUrls`. -/
def budget (w : World) (U visitedUrls : List JSString) : Nat :=
  ∑ u ∈ U.toFinset.filter (fun u => u ∉ visitedUrls), (2 + 2 * linkCount w u)

/-- The measure of a state: it drops with every step of the event loop. -/
def potential (w : World) (U : List JSString) (s : State) : Nat :=
  tasksWeight w s.tasks + budget w U s.visitedUrls

/-- Bound on the number of steps of a run over the link graph `U`. -/
def stepBound (w : World) (U : List JSString) : Nat :=
  1 + ∑ u ∈ U.toFinset, (2 + 2 * linkCount w u)

/-- Canonical form of an ASCII code unit. -/
def canonAscii (c : Nat) : Nat := if isLowerAZ c then c - 32 else c

/-- Case tables that leave every code unit from 128 on unchanged. -/
def idCaseTables : CaseTables := ⟨fun c => [c], fun c => [c]⟩

/-! ## Example sites -/

/-- Origin of the example sites. -/
def siteOrigin : JSString := utf16 "https://example.test"

/-- The `URL` constructor on the root-relative hrefs of the example sites. -/
def siteResolve (href _base : JSString) : Option JSString := some (siteOrigin ++ href)

/-- A site whose seed page links to `/b` and to itself; `robots.txt` is not served. -/
def dedupWorld : World where
  baseUrl := utf16 "https://example.test/"
  caseTables := idCaseTables
  get := fun u =>
    if u = utf16 "https://example.test/" then some (utf16 "page A")
    else if u = utf16 "https://example.test/b" then some (utf16 "page B")
    else none
  resolve := siteResolve
  hrefs := fun html => if html = utf16 "page A" then [utf16 "/b", utf16 "/"] else []
  robotsParser := fun _ _ => none

/-- Rules that disallow every URL under `/private`. -/
def privateRules : RobotRules :=
  ⟨fun url _ => some (!startsWith url (utf16 "https://example.test/private"))⟩

/-- A site whose `robots.txt` disallows `/private` and whose seed page links to `/private` and
to `/b`. -/
def robotsWorld : World where
  baseUrl := utf16 "https://example.test/"
  caseTables := idCaseTables
  get := fun u =>
    if u = utf16 "https://example.test/robots.txt" then some (utf16 "Disallow: /private")
    else if u = utf16 "https://example.test/" then some (utf16 "page A")
    else if u = utf16 "https://example.test/b" then some (utf16 "page B")
    else if u = utf16 "https://example.test/private" then some (utf16 "secret")
    else none
  resolve := siteResolve
  hrefs := fun html => if html = utf16 "page A" then [utf16 "/private", utf16 "/b"] else []
  robotsParser := fun _ data =>
    if data = utf16 "Disallow: /private" then some privateRules else none

theorem canonicalize_of_lt (ct : CaseTables) {ch : Nat} (h : ch < 128) :
    canonicalize ct ch = canonAscii ch := by
  have h2 : ¬ 128 ≤ ch := by omega
  simp [canonicalize, toUpperCaseUnit, h, h2, canonAscii]

theorem canonicalize_of_ge (ct : CaseTables) {ch : Nat} (h : 128 ≤ ch) :
    128 ≤ canonicalize ct ch := by
  have h2 : ¬ ch < 128 := by omega
  unfold canonicalize toUpperCaseUnit
  simp only [h2, if_false]
  split
  · split
    · exact h
    · rename_i hc
      simp only [h, true_and, not_lt] at hc
      exact hc
  · exact h

theorem mem_classMembers_lt {a : Nat} (h : a ∈ classMembers) : a < 128 := by
  simp only [classMembers, List.mem_append, List.mem_map, List.mem_range] at h
  rcases h with ⟨i, hi, rfl⟩ | ⟨i, hi, rfl⟩ <;> omega

theorem canonAscii_lt {a : Nat} (h : a < 128) : canonAscii a < 128 := by
  unfold canonAscii
  split <;> omega

theorem matchesClass_ascii :
    ∀ ch, ch < 128 →
      classMembers.any (fun a => canonAscii a == canonAscii ch) = isAlnum ch := by
  decide

theorem matchesClass_eq (ct : CaseTables) (ch : Nat) : matchesClass ct ch = isAlnum ch := by
  by_cases h : ch < 128
  · rw [← matchesClass_ascii ch h, Bool.eq_iff_iff]
    simp only [matchesClass, List.any_eq_true, beq_iff_eq, canonicalize_of_lt ct h]
    constructor
    · rintro ⟨a, ha, he⟩
      exact ⟨a, ha, by rw [← canonicalize_of_lt ct (mem_classMembers_lt ha)]; exact he⟩
    · rintro ⟨a, ha, he⟩
      exact ⟨a, ha, by rw [canonicalize_of_lt ct (mem_classMembers_lt ha)]; exact he⟩
  · have h1 : 128 ≤ ch := by omega
    have h2 : isAlnum ch = false := by
      simp only [isAlnum, isLowerAZ, isUpperAZ, isDigit09, Bool.or_eq_false_iff,
        Bool.and_eq_false_iff, decide_eq_false_iff_not]
      omega
    rw [h2]
    simp only [matchesClass, List.any_eq_false, beq_iff_eq]
    intro a ha he
    have h3 := canonicalize_of_ge ct h1
    have h4 := canonAscii_lt (mem_classMembers_lt ha)
    rw [canonicalize_of_lt ct (mem_classMembers_lt ha)] at he
    omega

theorem isAlnum_lt {c : Nat} (h : isAlnum c = true) : c < 128 := by
  simp only [isAlnum, isLowerAZ, isUpperAZ, isDigit09, Bool.or_eq_true, Bool.and_eq_true,
    decide_eq_true_eq] at h
  omega

theorem toLowerCaseUnit_replace (ct : CaseTables) (ch : Nat) :
    toLowerCaseUnit ct (if matchesClass ct ch then ch else 95) = [specKeyUnit ch] := by
  rw [matchesClass_eq]
  unfold toLowerCaseUnit specKeyUnit asciiLower
  cases h : isAlnum ch
  · simp [isUpperAZ]
  · simp [isAlnum_lt h]

theorem toLowerCase_replaceNonAlnum (ct : CaseTables) (u : JSString) :
    toLowerCase ct (replaceNonAlnum ct u) = u.map specKeyUnit := by
  unfold toLowerCase replaceNonAlnum
  induction u with
  | nil => rfl
  | cons c u ih =>
    simp only [List.map_cons, List.flatten_cons, toLowerCaseUnit_replace, List.singleton_append]
    rw [ih]

theorem filename_eq_specKey (ct : CaseTables) (u : JSString) : filename ct u = specKey u := by
  unfold filename specKey
  rw [toLowerCase_replaceNonAlnum]

theorem isKeyUnit_specKeyUnit (c : Nat) : isKeyUnit (specKeyUnit c) = true := by
  unfold specKeyUnit
  cases h : isAlnum c
  · simp [isKeyUnit]
  · simp only [isAlnum, isLowerAZ, isUpperAZ, isDigit09, Bool.or_eq_true, Bool.and_eq_true,
      decide_eq_true_eq] at h
    simp only [if_true, isKeyUnit, asciiLower, isLowerAZ, isUpperAZ, isDigit09, Bool.or_eq_true,
      Bool.and_eq_true, decide_eq_true_eq, beq_iff_eq]
    split <;> omega

theorem specKeyUnit_eq_iff (a b : Nat) : specKeyUnit a = specKeyUnit b ↔ SameKeyUnit a b := by
  unfold SameKeyUnit specKeyUnit
  have key : ∀ c, isAlnum c = true → asciiLower c ≠ 95 := by
    intro c h
    simp only [isAlnum, isLowerAZ, isUpperAZ, isDigit09, Bool.or_eq_true, Bool.and_eq_true,
      decide_eq_true_eq] at h
    simp only [asciiLower, isUpperAZ, Bool.and_eq_true, decide_eq_true_eq]
    split <;> omega
  cases ha : isAlnum a <;> cases hb : isAlnum b <;> simp
  · exact fun h => key b hb h.symm
  · exact key a ha

theorem utf16_html : utf16 ".html" = [46, 104, 116, 109, 108] := by decide

theorem specKey_eq_iff (u v : JSString) :
    specKey u = specKey v ↔ List.Forall₂ SameKeyUnit u v := by
  unfold specKey
  rw [List.append_left_inj]
  induction u generalizing v with
  | nil => cases v <;> simp
  | cons a u ih =>
    cases v with
    | nil => simp
    | cons b v => simp [ih, specKeyUnit_eq_iff]

/-- C7. For every URL string `u` (and whatever the case tables of the runtime), the file name
computed at line 77 is the string of the same length in which each character of `[A-Za-z0-9]`
is replaced by its lower-case form and every other character by `_`, followed by `.html`; its
length is `|u| + 5` and its stem holds only characters of `[a-z0-9_]`. -/
theorem C7_filename_derivation (ct : CaseTables) (u : JSString) :
    filename ct u = u.map specKeyUnit ++ utf16 ".html" ∧
    (u.map specKeyUnit).length = u.length ∧
    (filename ct u).length = u.length + 5 ∧
    (filename ct u).take u.length = u.map specKeyUnit ∧
    (filename ct u).drop u.length = utf16 ".html" ∧
    ∀ c ∈ (filename ct u).take u.length, isKeyUnit c = true := by
  have h := filename_eq_specKey ct u
  unfold specKey at h
  have hl : (u.map specKeyUnit).length = u.length := List.length_map _ _
  have ht : (filename ct u).take u.length = u.map specKeyUnit := by
    rw [h, ← hl, List.take_left]
  refine ⟨h, hl, ?_, ht, ?_, ?_⟩
  · rw [h, List.length_append, hl, utf16_html]; rfl
  · rw [h, ← hl, List.drop_left]
  · intro c hc
    rw [ht, List.mem_map] at hc
    obtain ⟨a, _, rfl⟩ := hc
    exact isKeyUnit_specKeyUnit a

/-- C7 at `https://x.test/A-b`: the file name is `https___x_test_a_b.html`, five code units
longer than the URL. -/
theorem C7_filename_derivation_witness :
    filename idCaseTables (utf16 "https://x.test/A-b") = utf16 "https___x_test_a_b.html" ∧
      (filename idCaseTables (utf16 "https://x.test/A-b")).length
        = (utf16 "https://x.test/A-b").length + 5 :=
  ⟨by decide, (C7_filename_derivation idCaseTables (utf16 "https://x.test/A-b")).2.2.1⟩

theorem saveHTML_saveHTML (dir : FileSystem) (name c1 c2 : JSString) :
    saveHTML (saveHTML dir name c1) name c2 = saveHTML dir name c2 := by
  simp [saveHTML, List.filter_append, List.filter_filter]

theorem readFile_saveHTML (dir : FileSystem) (name c : JSString) :
    readFile (saveHTML dir name c) name = some c := by
  unfold readFile saveHTML
  rw [List.find?_append]
  have h : List.find? (fun e => decide (e.1 = name))
      (List.filter (fun e => decide (e.1 ≠ name)) dir) = none := by
    rw [List.find?_eq_none]
    intro e he
    have := (List.mem_filter.mp he).2
    simpa using this
  rw [h]
  simp

/-- C10. The file name is not injective: `https://x.test/a-b` and `https://x.test/a_b`, and two
URLs that differ in letter case only, have the same key.  For all URL strings `u` and `v` the
keys are equal exactly when `u` and `v` have the same length and at every position both
characters are outside `[A-Za-z0-9]` or both are inside it and equal up to ASCII case.  Saving
under an equal key replaces the file saved before. -/
theorem C10_filename_collisions (ct : CaseTables) :
    (utf16 "https://x.test/a-b" ≠ utf16 "https://x.test/a_b" ∧
      filename ct (utf16 "https://x.test/a-b") = filename ct (utf16 "https://x.test/a_b")) ∧
    (utf16 "https://x.test/Page" ≠ utf16 "https://x.test/page" ∧
      filename ct (utf16 "https://x.test/Page") = filename ct (utf16 "https://x.test/page")) ∧
    (∀ u v : JSString, filename ct u = filename ct v ↔
      (u.length = v.length ∧
        ∀ i (hu : i < u.length) (hv : i < v.length),
          SameKeyUnit (u.get ⟨i, hu⟩) (v.get ⟨i, hv⟩))) ∧
    (∀ (dir : FileSystem) (u v c1 c2 : JSString), filename ct u = filename ct v →
      saveHTML (saveHTML dir (filename ct u) c1) (filename ct v) c2
          = saveHTML dir (filename ct v) c2 ∧
        readFile (saveHTML (saveHTML dir (filename ct u) c1) (filename ct v) c2)
          (filename ct u) = some c2) := by
  refine ⟨⟨by decide, ?_⟩, ⟨by decide, ?_⟩, ?_, ?_⟩
  · rw [filename_eq_specKey, filename_eq_specKey]; decide
  · rw [filename_eq_specKey, filename_eq_specKey]; decide
  · intro u v
    rw [filename_eq_specKey, filename_eq_specKey, specKey_eq_iff, List.forall₂_iff_get]
  · intro dir u v c1 c2 h
    rw [h, saveHTML_saveHTML]
    exact ⟨rfl, readFile_saveHTML _ _ _⟩

/-- C10 at the two URLs of the claim: the second save replaces the file of the first. -/
theorem C10_filename_collisions_witness :
    filename idCaseTables (utf16 "https://x.test/a-b")
        = filename idCaseTables (utf16 "https://x.test/a_b") ∧
      readFile (saveHTML (saveHTML [] (filename idCaseTables (utf16 "https://x.test/a-b"))
          (utf16 "one")) (filename idCaseTables (utf16 "https://x.test/a_b")) (utf16 "two"))
        (filename idCaseTables (utf16 "https://x.test/a-b")) = some (utf16 "two") :=
  ⟨(C10_filename_collisions idCaseTables).1.2,
    ((C10_filename_collisions idCaseTables).2.2.2 [] (utf16 "https://x.test/a-b")
      (utf16 "https://x.test/a_b") (utf16 "one") (utf16 "two")
      (C10_filename_collisions idCaseTables).1.2).2⟩

/-! ## The invariant of the run -/

theorem saveHTML_key_mem (dir : FileSystem) (name c : JSString) :
    name ∈ (saveHTML dir name c).map Prod.fst := by
  simp [saveHTML]

theorem saveHTML_keys_mono (dir : FileSystem) (name c : JSString) {k : JSString}
    (h : k ∈ dir.map Prod.fst) : k ∈ (saveHTML dir name c).map Prod.fst := by
  by_cases hk : k = name
  · subst hk
    exact saveHTML_key_mem _ _ _
  · obtain ⟨e, he, rfl⟩ := List.mem_map.mp h
    simp only [saveHTML, List.map_append, List.mem_append, List.mem_map, List.mem_filter]
    exact Or.inl ⟨e, ⟨he, by simpa using hk⟩, rfl⟩

theorem saveHTML_keys_nodup (dir : FileSystem) (name c : JSString)
    (h : (dir.map Prod.fst).Nodup) : ((saveHTML dir name c).map Prod.fst).Nodup := by
  simp only [saveHTML, List.map_append, List.map_cons, List.map_nil]
  refine List.Nodup.append (h.sublist ((List.filter_sublist _).map _))
    (List.nodup_singleton _) ?_
  rw [List.disjoint_singleton]
  intro hm
  obtain ⟨e, he, hk⟩ := List.mem_map.mp hm
  have := (List.mem_filter.mp he).2
  simp only [ne_eq, decide_not, Bool.not_eq_true', decide_eq_false_iff_not] at this
  exact this hk

theorem startsWith_self (u : JSString) : startsWith u u = true := by
  unfold startsWith
  induction u with
  | nil => rfl
  | cons a u ih => simp [List.isPrefixOf, ih]

theorem Crawlable.startsWith {w : World} {u : JSString} (h : Crawlable w u) :
    startsWith u w.baseUrl = true := by
  cases h with
  | seed _ => exact startsWith_self _
  | link _ _ _ _ hp _ => exact hp

theorem Crawlable.allowed {w : World} {u : JSString} (h : Crawlable w u) :
    truthy (isUrlAllowed (runRules w) u) = true := by
  cases h with
  | seed ha => exact ha
  | link _ _ _ _ _ ha => exact ha

theorem loadRobotsTxt_requests (w : World) (b : JSString) :
    ∀ r ∈ (loadRobotsTxt w b).2, r.viaLimiter = false := by
  intro r hr
  unfold loadRobotsTxt at hr
  split at hr
  · simp at hr
  · split at hr <;> simp at hr <;> rw [hr]

theorem pageFetches_init (w : World) : pageFetches (initState w) = [] := by
  simp only [pageFetches, pageUrls, initState, startScraping, List.map_eq_nil_iff,
    List.filter_eq_nil_iff]
  intro r hr
  simp [loadRobotsTxt_requests w _ r hr]

theorem inv_init (w : World) : Inv w (initState w) where
  nodup := by simp [initState, startScraping]
  perm := by
    rw [pageFetches_init]
    simp [initState, startScraping, fetchUrls]
  visited := by simp [initState, startScraping]
  cand := by
    intro t ht
    simp only [initState, startScraping, List.mem_singleton] at ht
    subst ht
    exact ⟨startsWith_self _, Crawlable.seed⟩
  saved := by
    rw [pageFetches_init]
    simp [initState, startScraping]
  links := by
    rw [pageFetches_init]
    simp
  seed := Or.inr (Or.inr (Or.inr ⟨true, by simp [initState, startScraping]⟩))
  rootCount := by simp [initState, startScraping, Task.isRoot]
  rootUrl := by
    intro t ht _
    simp only [initState, startScraping, List.mem_singleton] at ht
    subst ht
    rfl
  rej := by simp [initState, startScraping]
  files := by simp [initState, startScraping]
  robots := by
    intro r hr _
    exact hr
  fileKeys := by simp [initState, startScraping]
  fileAll := by simp [initState, startScraping]

@[simp] theorem fetchUrls_nil : fetchUrls [] = [] := rfl

@[simp] theorem fetchUrls_linkCheck (v : JSString) (ts : List Task) :
    fetchUrls (Task.linkCheck v :: ts) = fetchUrls ts := rfl

@[simp] theorem fetchUrls_scrape (v : JSString) (r : Bool) (ts : List Task) :
    fetchUrls (Task.scrape v r :: ts) = fetchUrls ts := rfl

@[simp] theorem fetchUrls_fetch (v : JSString) (r : Bool) (ts : List Task) :
    fetchUrls (Task.fetch v r :: ts) = v :: fetchUrls ts := rfl

@[simp] theorem fetchUrls_append (a b : List Task) :
    fetchUrls (a ++ b) = fetchUrls a ++ fetchUrls b := by
  simp [fetchUrls, List.filterMap_append]

@[simp] theorem pageUrls_append_page (req : List Request) (u : JSString) :
    pageUrls (req ++ [⟨u, true⟩]) = pageUrls req ++ [u] := by
  simp [pageUrls, List.filter_append]

theorem mem_processLinks {w : World} {vis : List JSString} {html u : JSString} {t : Task}
    (h : t ∈ processLinks w vis html u) :
    ∃ href v, href ∈ w.hrefs html ∧ w.resolve href u = some v ∧
      startsWith v w.baseUrl = true ∧ v ∉ vis ∧ t = Task.linkCheck v := by
  unfold processLinks at h
  rw [List.mem_filterMap] at h
  obtain ⟨href, hm, hc⟩ := h
  unfold linkCallback at hc
  split at hc
  · simp at hc
  · rename_i v hv
    split at hc
    · rename_i hcond
      simp only [Option.some.injEq] at hc
      exact ⟨href, v, hm, hv, hcond.1, hcond.2, hc.symm⟩
    · simp at hc

theorem linkCheck_mem_processLinks {w : World} {vis : List JSString} {html u href v : JSString}
    (hm : href ∈ w.hrefs html) (hr : w.resolve href u = some v)
    (hp : startsWith v w.baseUrl = true) (hv : v ∉ vis) :
    Task.linkCheck v ∈ processLinks w vis html u := by
  unfold processLinks
  rw [List.mem_filterMap]
  refine ⟨href, hm, ?_⟩
  simp [linkCallback, hr, hp, hv]

@[simp] theorem fetchUrls_processLinks (w : World) (vis : List JSString) (html u : JSString) :
    fetchUrls (processLinks w vis html u) = [] := by
  unfold fetchUrls
  rw [List.filterMap_eq_nil_iff]
  intro t ht
  obtain ⟨_, v, _, _, _, _, rfl⟩ := mem_processLinks ht
  rfl

theorem filter_isRoot_processLinks (w : World) (vis : List JSString) (html u : JSString) :
    (processLinks w vis html u).filter Task.isRoot = [] := by
  rw [List.filter_eq_nil_iff]
  intro t ht
  obtain ⟨_, v, _, _, _, _, rfl⟩ := mem_processLinks ht
  simp [Task.isRoot]

theorem Covered.transfer {w : World} {vis vis' : List JSString} {ts ts' : List Task}
    {v : JSString} (h : Covered w vis ts v) (hv : ∀ x ∈ vis, x ∈ vis')
    (hl : Task.linkCheck v ∈ ts → Covered w vis' ts' v)
    (ha : ∀ r, Task.scrape v r ∈ ts → Covered w vis' ts' v) : Covered w vis' ts' v := by
  rcases h with h | h | h | ⟨r, h⟩
  · exact Or.inl h
  · exact Or.inr (Or.inl (hv v h))
  · exact hl h
  · exact ha r h

theorem inv_resume_linkCheck (w : World) (vis : List JSString) (v : JSString)
    (rest : List Task) (req : List Request) (files : FileSystem) (saved : List JSString)
    (main : Outcome) (unh : Nat)
    (h : Inv w ⟨vis, Task.linkCheck v :: rest, req, files, saved, main, unh⟩) :
    Inv w (resume w (runRules w) ⟨vis, rest, req, files, saved, main, unh⟩
      (Task.linkCheck v)) := by
  have hcov : ∀ x, Covered w vis (Task.linkCheck v :: rest) x →
      Covered w vis (if truthy (isUrlAllowed (runRules w) v) = true
        then rest ++ [Task.scrape v false] else rest) x := by
    intro x hx
    refine hx.transfer (fun _ hy => hy) ?_ ?_
    · intro hm
      rcases List.mem_cons.mp hm with he | hm
      · injection he with he
        subst he
        by_cases ha : truthy (isUrlAllowed (runRules w) x) = true
        · exact Or.inr (Or.inr (Or.inr ⟨false, by simp [ha]⟩))
        · exact Or.inl (by simpa using ha)
      · refine Or.inr (Or.inr (Or.inl ?_))
        split <;> simp [hm]
    · intro r hm
      rcases List.mem_cons.mp hm with he | hm
      · cases he
      · refine Or.inr (Or.inr (Or.inr ⟨r, ?_⟩))
        split <;> simp [hm]
  have h1 := h.nodup
  have h2 := h.perm
  have h3 := h.visited
  have h4 := h.cand
  have h5 := h.saved
  have h6 := h.links
  have h7 := h.seed
  have h8 := h.rootCount
  have h9 := h.rootUrl
  have h10 := h.rej
  have h11 := h.files
  have h12 := h.robots
  have h13 := h.fileKeys
  have h14 := h.fileAll
  simp only [pageFetches] at h2 h5 h6 h10
  simp only [fetchUrls_linkCheck] at h2
  simp only [resume, linkCallbackResumed, scrapeWebpage, scrapeWebpageFetched]
  by_cases ha : truthy (isUrlAllowed (runRules w) v) = true
  · simp only [ha, if_true] at hcov ⊢
    refine ⟨h1, ?_, h3, ?_, h5, fun u hu x hl hp => hcov x (h6 u hu x hl hp), hcov _ h7, ?_, ?_,
      h10, h11, h12, h13, h14⟩
    · simpa [pageFetches, fetchUrls] using h2
    · intro t ht
      rcases List.mem_append.mp ht with ht | ht
      · exact h4 t (List.mem_cons_of_mem _ ht)
      · rw [List.mem_singleton] at ht
        subst ht
        exact h4 (Task.linkCheck v) (List.mem_cons_self _ _)
    · simpa [List.filter_append, Task.isRoot, List.filter_cons] using h8
    · intro t ht hr
      rcases List.mem_append.mp ht with ht | ht
      · exact h9 t (List.mem_cons_of_mem _ ht) hr
      · rw [List.mem_singleton] at ht
        subst ht
        simp [Task.isRoot] at hr
  · simp only [ha] at hcov ⊢
    simp only [Bool.false_eq_true, if_false] at hcov ⊢
    refine ⟨h1, h2, h3, fun t ht => h4 t (List.mem_cons_of_mem _ ht), h5,
      fun u hu x hl hp => hcov x (h6 u hu x hl hp), hcov _ h7, ?_,
      fun t ht => h9 t (List.mem_cons_of_mem _ ht), h10, h11, h12, h13, h14⟩
    simpa [Task.isRoot, List.filter_cons] using h8

theorem inv_resume_scrape (w : World) (vis : List JSString) (u : JSString) (root : Bool)
    (rest : List Task) (req : List Request) (files : FileSystem) (saved : List JSString)
    (main : Outcome) (unh : Nat)
    (h : Inv w ⟨vis, Task.scrape u root :: rest, req, files, saved, main, unh⟩) :
    Inv w (resume w (runRules w) ⟨vis, rest, req, files, saved, main, unh⟩
      (Task.scrape u root)) := by
  have h1 := h.nodup
  have h2 := h.perm
  have h3 := h.visited
  have h4 := h.cand
  have h5 := h.saved
  have h6 := h.links
  have h7 := h.seed
  have h8 := h.rootCount
  have h9 := h.rootUrl
  have h10 := h.rej
  have h11 := h.files
  have h12 := h.robots
  have h13 := h.fileKeys
  have h14 := h.fileAll
  simp only [pageFetches] at h2 h5 h6 h10
  simp only [fetchUrls_scrape] at h2
  simp only [resume, linkCallbackResumed, scrapeWebpage, scrapeWebpageFetched]
  by_cases hc : truthy (isUrlAllowed (runRules w) u) = true ∧ u ∉ vis
  · simp only [hc, not_false_eq_true, and_self, if_true]
    have hcov : ∀ x, Covered w vis (Task.scrape u root :: rest) x →
        Covered w (vis ++ [u]) (rest ++ [Task.fetch u root]) x := by
      intro x hx
      refine hx.transfer (fun y hy => List.mem_append_left _ hy) ?_ ?_
      · intro hm
        rcases List.mem_cons.mp hm with he | hm
        · cases he
        · exact Or.inr (Or.inr (Or.inl (List.mem_append_left _ hm)))
      · intro r hm
        rcases List.mem_cons.mp hm with he | hm
        · injection he with he _
          subst he
          exact Or.inr (Or.inl (by simp))
        · exact Or.inr (Or.inr (Or.inr ⟨r, List.mem_append_left _ hm⟩))
    refine ⟨?_, ?_, ?_, ?_, h5, fun a ha x hl hp => hcov x (h6 a ha x hl hp), hcov _ h7, ?_, ?_,
      h10, h11, h12, h13, h14⟩
    · exact List.Nodup.append h1 (List.nodup_singleton u) (by simpa using hc.2)
    · simp only [fetchUrls_append, fetchUrls_fetch, fetchUrls_nil, pageFetches]
      have e : (fetchUrls rest ++ [u] ++ pageUrls req).Perm
          ((fetchUrls rest ++ pageUrls req) ++ [u]) := by
        rw [List.append_assoc, List.append_assoc]
        exact List.Perm.append_left _ List.perm_append_comm
      exact e.trans (h2.append_right [u])
    · intro a ha
      rcases List.mem_append.mp ha with ha | ha
      · exact h3 a ha
      · rw [List.mem_singleton] at ha
        subst ha
        exact (h4 _ (List.mem_cons_self _ _)).2 hc.1
    · intro t ht
      rcases List.mem_append.mp ht with ht | ht
      · exact h4 t (List.mem_cons_of_mem _ ht)
      · rw [List.mem_singleton] at ht
        subst ht
        exact h4 (Task.scrape u root) (List.mem_cons_self _ _)
    · cases root
      · simpa [List.filter_append, Task.isRoot, List.filter_cons] using h8
      · simpa [List.filter_append, Task.isRoot, List.filter_cons] using h8
    · intro t ht hr
      rcases List.mem_append.mp ht with ht | ht
      · exact h9 t (List.mem_cons_of_mem _ ht) hr
      · rw [List.mem_singleton] at ht
        subst ht
        exact h9 (Task.scrape u root) (List.mem_cons_self _ _) hr
  · simp only [hc, if_false]
    have hcov : ∀ x, Covered w vis (Task.scrape u root :: rest) x → Covered w vis rest x := by
      intro x hx
      refine hx.transfer (fun y hy => hy) ?_ ?_
      · intro hm
        rcases List.mem_cons.mp hm with he | hm
        · cases he
        · exact Or.inr (Or.inr (Or.inl hm))
      · intro r hm
        rcases List.mem_cons.mp hm with he | hm
        · injection he with he _
          subst he
          by_cases ha : truthy (isUrlAllowed (runRules w) x) = true
          · exact Or.inr (Or.inl (by
              by_contra hn
              exact hc ⟨ha, hn⟩))
          · exact Or.inl (by simpa using ha)
        · exact Or.inr (Or.inr (Or.inr ⟨r, hm⟩))
    refine ⟨h1, h2, h3, fun t ht => h4 t (List.mem_cons_of_mem _ ht), h5,
      fun a ha x hl hp => hcov x (h6 a ha x hl hp), hcov _ h7, ?_,
      fun t ht => h9 t (List.mem_cons_of_mem _ ht), ?_, h11, h12, h13, h14⟩
    · cases root
      · simpa [Task.isRoot, List.filter_cons] using h8
      · simp only [Task.isRoot, List.filter_cons, if_true, List.length_cons] at h8
        simp only [if_true]
        split at h8
        · simpa using h8
        · omega
    · intro hm
      cases root
      · exact h10 (by simpa using hm)
      · simp at hm

theorem inv_resume_fetch (w : World) (vis : List JSString) (u : JSString) (root : Bool)
    (rest : List Task) (req : List Request) (files : FileSystem) (saved : List JSString)
    (main : Outcome) (unh : Nat)
    (h : Inv w ⟨vis, Task.fetch u root :: rest, req, files, saved, main, unh⟩) :
    Inv w (resume w (runRules w) ⟨vis, rest, req, files, saved, main, unh⟩
      (Task.fetch u root)) := by
  have h1 := h.nodup
  have h2 := h.perm
  have h3 := h.visited
  have h4 := h.cand
  have h5 := h.saved
  have h6 := h.links
  have h7 := h.seed
  have h8 := h.rootCount
  have h9 := h.rootUrl
  have h10 := h.rej
  have h11 := h.files
  have h12 := h.robots
  have h13 := h.fileKeys
  have h14 := h.fileAll
  simp only [pageFetches] at h2 h5 h6 h10
  simp only [fetchUrls_fetch] at h2
  have huvis : u ∈ vis := h2.subset (by simp)
  have hperm : (fetchUrls rest ++ (pageUrls req ++ [u])).Perm vis := by
    rw [← List.append_assoc]
    exact (List.perm_append_singleton u _).trans h2
  have hcov : ∀ (extra : List Task) (x : JSString),
      Covered w vis (Task.fetch u root :: rest) x → Covered w vis (rest ++ extra) x := by
    intro extra x hx
    refine hx.transfer (fun y hy => hy) ?_ ?_
    · intro hm
      rcases List.mem_cons.mp hm with he | hm
      · cases he
      · exact Or.inr (Or.inr (Or.inl (List.mem_append_left _ hm)))
    · intro r hm
      rcases List.mem_cons.mp hm with he | hm
      · cases he
      · exact Or.inr (Or.inr (Or.inr ⟨r, List.mem_append_left _ hm⟩))
  have hrob : ∀ r ∈ req ++ [(⟨u, true⟩ : Request)], r.viaLimiter = false →
      r ∈ (loadRobotsTxt w w.baseUrl).2 := by
    intro r hr hv
    rcases List.mem_append.mp hr with hr | hr
    · exact h12 r hr hv
    · rw [List.mem_singleton] at hr
      subst hr
      simp at hv
  have hcount : ∀ m : Outcome, m ≠ Outcome.pending →
      (List.filter Task.isRoot rest).length =
        if (if root = true then m else main) = Outcome.pending then 1 else 0 := by
    intro m hm
    cases root
    · simpa [Task.isRoot, List.filter_cons] using h8
    · simp only [Task.isRoot, List.filter_cons, if_true, List.length_cons] at h8
      simp only [if_true, hm, if_false]
      split at h8
      · simpa using h8
      · omega
  cases hg : w.get u with
  | none =>
    simp only [resume, linkCallbackResumed, scrapeWebpage, scrapeWebpageFetched, hg]
    refine ⟨h1, ?_, h3, fun t ht => h4 t (List.mem_cons_of_mem _ ht), ?_, ?_, ?_, ?_,
      fun t ht => h9 t (List.mem_cons_of_mem _ ht), ?_, h11, hrob, h13, h14⟩
    · simpa [pageFetches] using hperm
    · simp [pageFetches, List.filter_append, hg, h5]
    · intro a ha x hl hp
      simp only [pageFetches, pageUrls_append_page] at ha
      rcases List.mem_append.mp ha with ha | ha
      · simpa using hcov [] x (h6 a ha x hl hp)
      · rw [List.mem_singleton] at ha
        subst ha
        obtain ⟨html, _, hg', _, _⟩ := hl
        rw [hg] at hg'
        cases hg'
    · simpa using hcov [] _ h7
    · exact hcount Outcome.rejected (by decide)
    · intro hm
      simp only [pageFetches, pageUrls_append_page]
      cases root
      · have := h10 (by simpa using hm)
        exact ⟨this.1, List.mem_append_left _ this.2⟩
      · have e := h9 (Task.fetch u true) (List.mem_cons_self _ _) rfl
        simp only [Task.url] at e
        subst e
        exact ⟨hg, by simp⟩
  | some html =>
    simp only [resume, linkCallbackResumed, scrapeWebpage, scrapeWebpageFetched, hg]
    refine ⟨h1, ?_, h3, ?_, ?_, ?_, hcov _ _ h7, ?_, ?_, ?_, ?_, hrob, ?_, ?_⟩
    · simpa [pageFetches] using hperm
    · intro t ht
      rcases List.mem_append.mp ht with ht | ht
      · exact h4 t (List.mem_cons_of_mem _ ht)
      · obtain ⟨href, v, hm, hr, hp, _, rfl⟩ := mem_processLinks ht
        exact ⟨hp, fun ha => Crawlable.link (h3 u huvis) hg hm hr hp ha⟩
    · simp [pageFetches, List.filter_append, hg, h5]
    · intro a ha x hl hp
      simp only [pageFetches, pageUrls_append_page] at ha
      rcases List.mem_append.mp ha with ha | ha
      · exact hcov _ x (h6 a ha x hl hp)
      · rw [List.mem_singleton] at ha
        subst ha
        obtain ⟨html', href, hg', hm, hr⟩ := hl
        rw [hg] at hg'
        cases hg'
        by_cases hv : x ∈ vis
        · exact Or.inr (Or.inl hv)
        · exact Or.inr (Or.inr (Or.inl
            (List.mem_append_right _ (linkCheck_mem_processLinks hm hr hp hv))))
    · rw [List.filter_append, filter_isRoot_processLinks, List.append_nil]
      exact hcount Outcome.completed (by decide)
    · intro t ht hr
      rcases List.mem_append.mp ht with ht | ht
      · exact h9 t (List.mem_cons_of_mem _ ht) hr
      · obtain ⟨_, v, _, _, _, _, rfl⟩ := mem_processLinks ht
        simp [Task.isRoot] at hr
    · intro hm
      simp only [pageFetches, pageUrls_append_page]
      cases root
      · have := h10 (by simpa using hm)
        exact ⟨this.1, List.mem_append_left _ this.2⟩
      · simp at hm
    · intro e he
      unfold saveHTML at he
      rcases List.mem_append.mp he with he | he
      · obtain ⟨a, ha, hk⟩ := h11 e (List.mem_filter.mp he).1
        exact ⟨a, List.mem_append_left _ ha, hk⟩
      · rw [List.mem_singleton] at he
        subst he
        exact ⟨u, by simp, rfl, hg⟩
    · exact saveHTML_keys_nodup _ _ _ h13
    · intro a ha
      rcases List.mem_append.mp ha with ha | ha
      · exact saveHTML_keys_mono _ _ _ (h14 a ha)
      · rw [List.mem_singleton] at ha
        subst ha
        exact saveHTML_key_mem _ _ _

theorem inv_resume (w : World) (vis : List JSString) (t : Task)
    (rest : List Task) (req : List Request) (files : FileSystem) (saved : List JSString)
    (main : Outcome) (unh : Nat)
    (h : Inv w ⟨vis, t :: rest, req, files, saved, main, unh⟩) :
    Inv w (resume w (runRules w) ⟨vis, rest, req, files, saved, main, unh⟩ t) := by
  cases t with
  | linkCheck v => exact inv_resume_linkCheck w vis v rest req files saved main unh h
  | scrape u root => exact inv_resume_scrape w vis u root rest req files saved main unh h
  | fetch u root => exact inv_resume_fetch w vis u root rest req files saved main unh h

theorem perm_cons_eraseIdx {α : Type} :
    ∀ (l : List α) (i : Nat) (t : α), l.get? i = some t → l.Perm (t :: l.eraseIdx i)
  | [], _, _, h => by simp at h
  | a :: l, 0, t, h => by
    simp only [List.get?_cons_zero, Option.some.injEq] at h
    subst h
    simp
  | a :: l, i + 1, t, h => by
    simp only [List.get?_cons_succ] at h
    have ih := perm_cons_eraseIdx l i t h
    simp only [List.eraseIdx_cons_succ]
    exact (ih.cons a).trans (List.Perm.swap t a _)

theorem step_eq {w : World} {rules : Option RobotRules} {s s' : State} {i : Nat}
    (h : step w rules s i = some s') :
    ∃ t, s.tasks.get? i = some t ∧
      s' = resume w rules ⟨s.visitedUrls, s.tasks.eraseIdx i, s.requests, s.files, s.saved,
        s.main, s.unhandled⟩ t := by
  unfold step at h
  split at h
  · simp at h
  · rename_i t ht
    simp only [Option.some.injEq] at h
    exact ⟨t, ht, h.symm⟩

theorem Inv.perm_tasks {w : World} {s : State} (h : Inv w s) {ts : List Task}
    (hp : s.tasks.Perm ts) :
    Inv w ⟨s.visitedUrls, ts, s.requests, s.files, s.saved, s.main, s.unhandled⟩ where
  nodup := h.nodup
  perm := by
    have e : (fetchUrls ts).Perm (fetchUrls s.tasks) := (hp.symm.filterMap _)
    exact (e.append_right _).trans h.perm
  visited := h.visited
  cand := fun t ht => h.cand t (hp.symm.subset ht)
  saved := h.saved
  links := by
    intro u hu v hl hs
    refine (h.links u hu v hl hs).transfer (fun _ hy => hy) ?_ ?_
    · exact fun hm => Or.inr (Or.inr (Or.inl (hp.subset hm)))
    · exact fun r hm => Or.inr (Or.inr (Or.inr ⟨r, hp.subset hm⟩))
  seed := by
    refine h.seed.transfer (fun _ hy => hy) ?_ ?_
    · exact fun hm => Or.inr (Or.inr (Or.inl (hp.subset hm)))
    · exact fun r hm => Or.inr (Or.inr (Or.inr ⟨r, hp.subset hm⟩))
  rootCount := by
    rw [← h.rootCount]
    exact (hp.symm.filter _).length_eq
  rootUrl := fun t ht => h.rootUrl t (hp.symm.subset ht)
  rej := h.rej
  files := h.files
  robots := h.robots
  fileKeys := h.fileKeys
  fileAll := h.fileAll

theorem inv_step {w : World} {s s' : State} {i : Nat} (h : Inv w s)
    (hs : step w (runRules w) s i = some s') : Inv w s' := by
  obtain ⟨t, ht, rfl⟩ := step_eq hs
  exact inv_resume w _ t _ _ _ _ _ _ (h.perm_tasks (perm_cons_eraseIdx _ _ _ ht))

theorem inv_reachable {w : World} {s : State} (h : Reachable w s) : Inv w s := by
  induction h with
  | init => exact inv_init w
  | step i _ hs ih => exact inv_step ih hs

/-! ## Termination -/

theorem Closed.crawlable {w : World} {U : List JSString} (hU : Closed w U) {u : JSString}
    (h : Crawlable w u) : u ∈ U := by
  induction h with
  | seed _ => exact hU.1
  | link _ hg hm hr hp ha ih => exact hU.2 _ ih _ hg _ hm _ hr hp ha

theorem budget_visit (w : World) (U vis : List JSString) {u : JSString}
    (hu : u ∈ U) (hv : u ∉ vis) :
    budget w U (vis ++ [u]) + (2 + 2 * linkCount w u) = budget w U vis := by
  unfold budget
  have e : U.toFinset.filter (fun x => x ∉ vis ++ [u])
      = (U.toFinset.filter (fun x => x ∉ vis)).erase u := by
    ext x
    simp only [Finset.mem_filter, List.mem_toFinset, List.mem_append, List.mem_singleton,
      not_or, Finset.mem_erase]
    tauto
  have hm : u ∈ U.toFinset.filter (fun x => x ∉ vis) := by
    simp [hu, hv]
  rw [e, add_comm]
  exact Finset.add_sum_erase _ (fun x => 2 + 2 * linkCount w x) hm

theorem tasksWeight_processLinks (w : World) (vis : List JSString) (html u : JSString) :
    tasksWeight w (processLinks w vis html u) ≤ 2 * (w.hrefs html).length := by
  have h1 : ∀ ts : List Task, (∀ t ∈ ts, ∃ v, t = Task.linkCheck v) →
      tasksWeight w ts = 2 * ts.length := by
    intro ts
    induction ts with
    | nil => intro _; rfl
    | cons t ts ih =>
      intro h
      obtain ⟨v, rfl⟩ := h t (List.mem_cons_self _ _)
      have e := ih (fun t ht => h t (List.mem_cons_of_mem _ ht))
      unfold tasksWeight at e ⊢
      rw [List.map_cons, List.sum_cons, List.length_cons, e]
      simp only [Task.weight]
      omega
  rw [h1]
  · have := List.length_filterMap_le (linkCallback w vis u) (w.hrefs html)
    unfold processLinks
    omega
  · intro t ht
    obtain ⟨_, v, _, _, _, _, rfl⟩ := mem_processLinks ht
    exact ⟨v, rfl⟩

theorem tasksWeight_append (w : World) (a b : List Task) :
    tasksWeight w (a ++ b) = tasksWeight w a + tasksWeight w b := by
  simp [tasksWeight]

theorem potential_resume (w : World) (U : List JSString) (hU : Closed w U)
    (vis : List JSString) (t : Task)
    (rest : List Task) (req : List Request) (files : FileSystem) (saved : List JSString)
    (main : Outcome) (unh : Nat)
    (h : Inv w ⟨vis, t :: rest, req, files, saved, main, unh⟩) :
    potential w U (resume w (runRules w) ⟨vis, rest, req, files, saved, main, unh⟩ t) + 1
      ≤ tasksWeight w (t :: rest) + budget w U vis := by
  cases t with
  | linkCheck v =>
    by_cases hc : truthy (isUrlAllowed (runRules w) v) = true
    · simp only [resume, linkCallbackResumed, scrapeWebpage, scrapeWebpageFetched,
        hc, if_true, potential, tasksWeight_append]
      simp only [tasksWeight, List.map_cons, List.sum_cons, Task.weight, List.map_nil,
        List.sum_nil]
      omega
    · simp only [resume, linkCallbackResumed, scrapeWebpage, scrapeWebpageFetched,
        hc, Bool.false_eq_true, if_false, potential]
      simp only [tasksWeight, List.map_cons, List.sum_cons, Task.weight]
      omega
  | scrape u root =>
    by_cases hc : truthy (isUrlAllowed (runRules w) u) = true ∧ u ∉ vis
    · have hu : u ∈ U := hU.crawlable ((h.cand _ (List.mem_cons_self _ _)).2 hc.1)
      have hb := budget_visit w U vis hu hc.2
      simp only [resume, linkCallbackResumed, scrapeWebpage, scrapeWebpageFetched,
          hc, not_false_eq_true, and_self, if_true, potential,
        tasksWeight_append]
      simp only [tasksWeight, List.map_cons, List.sum_cons, Task.weight, List.map_nil,
        List.sum_nil]
      omega
    · simp only [resume, linkCallbackResumed, scrapeWebpage, scrapeWebpageFetched,
        hc, if_false, potential]
      simp only [tasksWeight, List.map_cons, List.sum_cons, Task.weight]
      omega
  | fetch u root =>
    cases hg : w.get u with
    | none =>
      simp only [resume, linkCallbackResumed, scrapeWebpage, scrapeWebpageFetched, hg, potential]
      simp only [tasksWeight, List.map_cons, List.sum_cons, Task.weight]
      omega
    | some html =>
      simp only [resume, linkCallbackResumed, scrapeWebpage, scrapeWebpageFetched, hg, potential]
      have hl := tasksWeight_processLinks w vis html u
      have hc : linkCount w u = (w.hrefs html).length := by simp [linkCount, hg]
      simp only [tasksWeight_append]
      simp only [tasksWeight, List.map_cons, List.sum_cons, Task.weight, hc] at hl ⊢
      omega

theorem potential_step {w : World} {U : List JSString} (hU : Closed w U) {s s' : State}
    {i : Nat} (h : Inv w s) (hs : step w (runRules w) s i = some s') :
    potential w U s' + 1 ≤ potential w U s := by
  obtain ⟨t, ht, rfl⟩ := step_eq hs
  have hp := perm_cons_eraseIdx _ _ _ ht
  have h1 := potential_resume w U hU _ t _ _ _ _ _ _ (h.perm_tasks hp)
  have h2 : tasksWeight w s.tasks = tasksWeight w (t :: s.tasks.eraseIdx i) :=
    (hp.map _).sum_eq
  unfold potential
  rw [h2]
  exact h1

theorem exec_reachable {w : World} :
    ∀ (sched : List Nat) {s s' : State}, Reachable w s →
      exec w (runRules w) s sched = some s' → Reachable w s'
  | [], s, s', hr, h => by
    simp only [exec, Option.some.injEq] at h
    exact h ▸ hr
  | i :: sched, s, s', hr, h => by
    unfold exec at h
    split at h
    · simp at h
    · rename_i s1 hs
      exact exec_reachable sched (Reachable.step i hr hs) h

theorem potential_exec {w : World} {U : List JSString} (hU : Closed w U) :
    ∀ (sched : List Nat) {s s' : State}, Reachable w s →
      exec w (runRules w) s sched = some s' →
      potential w U s' + sched.length ≤ potential w U s
  | [], s, s', _, h => by
    simp only [exec, Option.some.injEq] at h
    subst h
    simp
  | i :: sched, s, s', hr, h => by
    unfold exec at h
    split at h
    · simp at h
    · rename_i s1 hs
      have h1 := potential_step hU (inv_reachable hr) hs
      have h2 := potential_exec hU sched (Reachable.step i hr hs) h
      simp only [List.length_cons]
      omega

theorem potential_init (w : World) (U : List JSString) :
    potential w U (initState w) = stepBound w U := by
  simp [potential, stepBound, initState, startScraping, tasksWeight, Task.weight, budget]

theorem step_zero_of_ne_nil (w : World) (rules : Option RobotRules) (s : State)
    (h : s.tasks ≠ []) : ∃ s', step w rules s 0 = some s' := by
  unfold step
  cases ht : s.tasks with
  | nil => exact absurd ht h
  | cons t ts => exact ⟨_, rfl⟩

theorem crawl_reachable {w : World} :
    ∀ (fuel : Nat) {s : State}, Reachable w s → Reachable w (crawl w (runRules w) fuel s)
  | 0, _, h => h
  | fuel + 1, s, h => by
    unfold crawl
    split
    · exact h
    · rename_i s' hs
      exact crawl_reachable fuel (Reachable.step 0 h hs)

theorem crawl_done {w : World} {U : List JSString} (hU : Closed w U) :
    ∀ (fuel : Nat) {s : State}, Reachable w s → potential w U s ≤ fuel →
      (crawl w (runRules w) fuel s).tasks = []
  | 0, s, _, hp => by
    unfold crawl
    cases ht : s.tasks with
    | nil => rfl
    | cons t ts =>
      have : 0 < potential w U s := by
        unfold potential
        rw [ht]
        cases t <;> simp [tasksWeight, Task.weight]
      omega
  | fuel + 1, s, hr, hp => by
    unfold crawl
    split
    · rename_i hs
      by_contra hne
      obtain ⟨s', hs'⟩ := step_zero_of_ne_nil w (runRules w) s hne
      rw [hs] at hs'
      cases hs'
    · rename_i s' hs
      have h1 := potential_step hU (inv_reachable hr) hs
      exact crawl_done hU fuel (Reachable.step 0 hr hs) (by omega)

/-! ## The claims on the crawl -/

theorem pageFetches_subset_visited {w : World} {s : State} (h : Inv w s) :
    ∀ u ∈ pageFetches s, u ∈ s.visitedUrls :=
  fun _ hu => h.perm.subset (List.mem_append_right _ hu)

theorem pageFetches_nodup {w : World} {s : State} (h : Inv w s) : (pageFetches s).Nodup :=
  (List.nodup_append.mp (h.perm.nodup_iff.mpr h.nodup)).2.1

theorem saved_sublist {w : World} {s : State} (h : Inv w s) :
    s.saved.Sublist (pageFetches s) := by
  rw [h.saved]
  exact List.filter_sublist _

theorem fetch_task_fresh {w : World} {s : State} (h : Inv w s) {u : JSString} {r : Bool}
    (ht : Task.fetch u r ∈ s.tasks) : u ∈ s.visitedUrls ∧ u ∉ pageFetches s := by
  have hm : u ∈ fetchUrls s.tasks := by
    unfold fetchUrls
    rw [List.mem_filterMap]
    exact ⟨_, ht, rfl⟩
  refine ⟨h.perm.subset (List.mem_append_left _ hm), fun hp => ?_⟩
  have hnd := h.perm.nodup_iff.mpr h.nodup
  exact (List.nodup_append.mp hnd).2.2 hm hp

theorem occurrences_eq_zero {u : JSString} {l : List JSString} (h : u ∉ l) :
    occurrences u l = 0 := by
  unfold occurrences
  rw [List.length_eq_zero, List.filter_eq_nil_iff]
  intro a ha
  simp only [decide_eq_true_eq]
  rintro rfl
  exact h ha

theorem occurrences_le_one {l : List JSString} (h : l.Nodup) (u : JSString) :
    occurrences u l ≤ 1 := by
  induction l with
  | nil => simp [occurrences]
  | cons a l ih =>
    rw [List.nodup_cons] at h
    by_cases ha : a = u
    · subst ha
      have := occurrences_eq_zero h.1
      unfold occurrences at this ⊢
      simp [List.filter_cons, this]
    · have := ih h.2
      unfold occurrences at this ⊢
      simpa [List.filter_cons, ha] using this

theorem occurrences_eq_one {l : List JSString} (h : l.Nodup) {u : JSString} (hu : u ∈ l) :
    occurrences u l = 1 := by
  have h1 := occurrences_le_one h u
  have h2 : 0 < occurrences u l := by
    unfold occurrences
    rw [List.length_pos_iff_exists_mem]
    exact ⟨u, List.mem_filter.mpr ⟨hu, by simp⟩⟩
  omega

theorem final_fetches_perm {w : World} {s : State} (h : Inv w s) (hf : s.tasks = []) :
    (pageFetches s).Perm s.visitedUrls := by
  have := h.perm
  rw [hf] at this
  simpa using this

theorem final_visited {w : World} {s : State} (h : Inv w s) (hf : s.tasks = [])
    {u : JSString} (hc : Crawlable w u) : u ∈ s.visitedUrls := by
  have hcov : ∀ v, truthy (isUrlAllowed (runRules w) v) = true →
      Covered w s.visitedUrls s.tasks v → v ∈ s.visitedUrls := by
    intro v ha hv
    rw [hf] at hv
    rcases hv with hv | hv | hv | ⟨r, hv⟩
    · rw [ha] at hv
      cases hv
    · exact hv
    · cases hv
    · cases hv
  induction hc with
  | seed ha => exact hcov _ ha h.seed
  | link _ hg hm hr hp ha ih =>
    exact hcov _ ha (h.links _ ((final_fetches_perm h hf).symm.subset ih) _
      ⟨_, _, hg, hm, hr⟩ hp)

theorem final_saved_iff {w : World} {s : State} (h : Inv w s) (hf : s.tasks = [])
    (u : JSString) : u ∈ s.saved ↔ Crawlable w u ∧ (w.get u).isSome = true := by
  rw [h.saved, List.mem_filter]
  constructor
  · rintro ⟨hu, hg⟩
    exact ⟨h.visited u (pageFetches_subset_visited h u hu), hg⟩
  · rintro ⟨hc, hg⟩
    exact ⟨(final_fetches_perm h hf).symm.subset (final_visited h hf hc), hg⟩

theorem files_length_of_saved {w : World} {s : State} (h : Inv w s) {L : List JSString}
    (hp : s.saved.Perm L) (hn : (L.map (filename w.caseTables)).Nodup) :
    s.files.length = L.length := by
  have e : (s.files.map Prod.fst).Perm (L.map (filename w.caseTables)) := by
    rw [List.perm_ext_iff_of_nodup h.fileKeys hn]
    intro k
    constructor
    · intro hk
      obtain ⟨e, he, rfl⟩ := List.mem_map.mp hk
      obtain ⟨u, hu, hk, _⟩ := h.files e he
      rw [hk]
      exact List.mem_map.mpr ⟨u, hp.subset hu, rfl⟩
    · intro hk
      obtain ⟨u, hu, rfl⟩ := List.mem_map.mp hk
      exact h.fileAll u (hp.symm.subset hu)
  simpa using e.length_eq

theorem dedupWorld_closed :
    Closed dedupWorld [utf16 "https://example.test/", utf16 "https://example.test/b"] := by
  decide

theorem dedupWorld_crawlable (u : JSString) :
    Crawlable dedupWorld u ↔
      u ∈ [utf16 "https://example.test/", utf16 "https://example.test/b"] := by
  constructor
  · exact fun h => dedupWorld_closed.crawlable h
  · intro h
    have ha : Crawlable dedupWorld (utf16 "https://example.test/") :=
      Crawlable.seed (by decide)
    have hb : Crawlable dedupWorld (utf16 "https://example.test/b") :=
      @Crawlable.link dedupWorld _ _ (utf16 "page A") (utf16 "/b") ha (by decide) (by decide)
        (by decide) (by decide) (by decide)
    simp only [List.mem_cons, List.mem_singleton, List.not_mem_nil, or_false] at h
    rcases h with rfl | rfl
    · exact ha
    · exact hb

/-- C1. In every state of every run (whatever the link graph, the rules and the order in which
the event loop resumes the suspended continuations) `saveHTML` was called at most once per URL
string and each URL was requested at most once.  The reason is the one given: `scrapeWebpage`
resumed at line 69 with a URL of `visitedUrls` returns with nothing requested or scheduled, and
otherwise puts the URL into `visitedUrls` in the same step that schedules the fetch, so a
scheduled fetch is always for a visited URL that was not requested before.  On the site whose
seed page links to `/b` and to itself every finished run has saved exactly the seed and `/b`,
holds two files and has requested the seed once. -/
theorem C1_dedup_invariant (w : World) :
    (∀ s, Reachable w s →
      s.saved.Nodup ∧ (∀ u, occurrences u s.saved ≤ 1) ∧
      (∀ u, occurrences u (pageFetches s) ≤ 1) ∧
      (∀ u ∈ pageFetches s, u ∈ s.visitedUrls) ∧
      (∀ u r, Task.fetch u r ∈ s.tasks → u ∈ s.visitedUrls ∧ u ∉ pageFetches s)) ∧
    (∀ (rules : Option RobotRules) (s : State) (u : JSString) (root : Bool),
      u ∈ s.visitedUrls →
      scrapeWebpage rules s u root =
        { s with main := if root = true then Outcome.completed else s.main }) ∧
    (∀ (rules : Option RobotRules) (s : State) (u : JSString) (root : Bool),
      truthy (isUrlAllowed rules u) = true → u ∉ s.visitedUrls →
      scrapeWebpage rules s u root =
        { s with visitedUrls := s.visitedUrls ++ [u],
                 tasks := s.tasks ++ [Task.fetch u root] }) ∧
    (∀ s, Reachable dedupWorld s → s.tasks = [] →
      s.saved.Perm [utf16 "https://example.test/", utf16 "https://example.test/b"] ∧
      s.files.length = 2 ∧
      occurrences (utf16 "https://example.test/") (pageFetches s) = 1) := by
  refine ⟨?_, ?_, ?_, ?_⟩
  · intro s hr
    have h := inv_reachable hr
    have hs : s.saved.Nodup := (pageFetches_nodup h).sublist (saved_sublist h)
    exact ⟨hs, occurrences_le_one hs, occurrences_le_one (pageFetches_nodup h),
      pageFetches_subset_visited h, fun u r ht => fetch_task_fresh h ht⟩
  · intro rules s u root hu
    simp [resume, linkCallbackResumed, scrapeWebpage, scrapeWebpageFetched, hu]
  · intro rules s u root ha hu
    simp [resume, linkCallbackResumed, scrapeWebpage, scrapeWebpageFetched, ha, hu]
  · intro s hr hf
    have h := inv_reachable hr
    have hs : s.saved.Nodup := (pageFetches_nodup h).sublist (saved_sublist h)
    have hp : s.saved.Perm [utf16 "https://example.test/", utf16 "https://example.test/b"] := by
      rw [List.perm_ext_iff_of_nodup hs (by decide)]
      intro u
      rw [final_saved_iff h hf, dedupWorld_crawlable]
      constructor
      · exact fun hu => hu.1
      · intro hu
        refine ⟨hu, ?_⟩
        simp only [List.mem_cons, List.mem_singleton, List.not_mem_nil, or_false] at hu
        rcases hu with rfl | rfl <;> decide
    refine ⟨hp, files_length_of_saved h hp (by decide), ?_⟩
    refine occurrences_eq_one (pageFetches_nodup h) ?_
    exact (saved_sublist h).subset (hp.symm.subset (by simp))

/-- C1 on the site whose seed page links to `/b` and to itself, for the run that resumes the
oldest continuation first: the run finishes, two pages are saved in two files and the seed is
requested once. -/
theorem C1_dedup_invariant_witness :
    (crawl dedupWorld (runRules dedupWorld) 8 (initState dedupWorld)).tasks = [] ∧
    ((crawl dedupWorld (runRules dedupWorld) 8 (initState dedupWorld)).saved.Perm
        [utf16 "https://example.test/", utf16 "https://example.test/b"] ∧
      (crawl dedupWorld (runRules dedupWorld) 8 (initState dedupWorld)).files.length = 2 ∧
      occurrences (utf16 "https://example.test/")
        (pageFetches (crawl dedupWorld (runRules dedupWorld) 8 (initState dedupWorld))) = 1) :=
  ⟨by decide, (C1_dedup_invariant dedupWorld).2.2.2 _ (crawl_reachable 8 Reachable.init)
    (by decide)⟩

/-- C6. Without rules `isUrlAllowed` answers `true` for every URL, and with rules `r` it answers
what `r.isAllowed(targetUrl, userAgent)` answers for the fixed user agent.  `loadRobotsTxt`
returns no rules whenever the URL of `robots.txt` cannot be built, the request fails or the
parser throws, and then every URL passes the tests of lines 59 and 69; when nothing fails it
returns the parsed rules. -/
theorem C6_fail_open_gate :
    (∀ u : JSString, isUrlAllowed none u = some true) ∧
    (∀ (r : RobotRules) (u : JSString), isUrlAllowed (some r) u = r.isAllowed u userAgent) ∧
    userAgent = utf16 "ShoreLine/1.0 (+http://example.com/bot-info)" ∧
    (∀ (w : World) (b : JSString),
      (w.resolve (utf16 "/robots.txt") b = none ∨
        ∃ robotsUrl, w.resolve (utf16 "/robots.txt") b = some robotsUrl ∧
          (w.get robotsUrl = none ∨
            ∃ data, w.get robotsUrl = some data ∧ w.robotsParser robotsUrl data = none)) →
      (loadRobotsTxt w b).1 = none ∧
        ∀ u, truthy (isUrlAllowed (loadRobotsTxt w b).1 u) = true) ∧
    (∀ (w : World) (b robotsUrl data : JSString),
      w.resolve (utf16 "/robots.txt") b = some robotsUrl → w.get robotsUrl = some data →
      (loadRobotsTxt w b).1 = w.robotsParser robotsUrl data) := by
  refine ⟨fun _ => rfl, fun _ _ => rfl, rfl, ?_, ?_⟩
  · intro w b h
    have e : (loadRobotsTxt w b).1 = none := by
      unfold loadRobotsTxt
      rcases h with h | ⟨robotsUrl, h, hg | ⟨data, hg, hp⟩⟩
      · simp [h]
      · simp [h, hg]
      · simp [h, hg, hp]
    rw [e]
    exact ⟨rfl, fun _ => rfl⟩
  · intro w b robotsUrl data h hg
    simp [loadRobotsTxt, h, hg]

/-- C6 on the site that serves no `robots.txt`: no rules are loaded and the seed is allowed. -/
theorem C6_fail_open_gate_witness :
    (loadRobotsTxt dedupWorld dedupWorld.baseUrl).1 = none ∧
      truthy (isUrlAllowed (loadRobotsTxt dedupWorld dedupWorld.baseUrl).1
        (utf16 "https://example.test/")) = true :=
  ⟨(C6_fail_open_gate.2.2.2.1 dedupWorld dedupWorld.baseUrl
      (Or.inr ⟨utf16 "https://example.test/robots.txt", by decide, Or.inl (by decide)⟩)).1,
    (C6_fail_open_gate.2.2.2.1 dedupWorld dedupWorld.baseUrl
      (Or.inr ⟨utf16 "https://example.test/robots.txt", by decide, Or.inl (by decide)⟩)).2 _⟩

/-- C9. On the site that serves `robots.txt`, the request for `robots.txt` made by
`loadRobotsTxt` is issued by `axios.get` directly, outside `limiter.schedule`; only the page
requests of the run that follows go through the limiter. -/
theorem C9_robots_request_outside_limiter :
    (startScraping robotsWorld robotsWorld.baseUrl).2.requests
        = [⟨utf16 "https://example.test/robots.txt", false⟩] ∧
    (crawl robotsWorld (runRules robotsWorld) 8 (initState robotsWorld)).tasks = [] ∧
    (crawl robotsWorld (runRules robotsWorld) 8 (initState robotsWorld)).requests
        = [⟨utf16 "https://example.test/robots.txt", false⟩,
           ⟨utf16 "https://example.test/", true⟩,
           ⟨utf16 "https://example.test/b", true⟩] := by
  decide

/-- C5. In every state of every run, every URL requested at line 72, every URL whose content
was saved, every URL of `visitedUrls` and the URL of every suspended continuation starts with
`baseUrl`.  The run starts from the call for the seed, which is `baseUrl` itself and the only
call made without the `startsWith` test; the callback of `processLinks` goes on with a found
URL only if it starts with `baseUrl`. -/
theorem C5_origin_confinement (w : World) :
    (∀ s, Reachable w s →
      (∀ u ∈ pageFetches s, startsWith u w.baseUrl = true) ∧
      (∀ u ∈ s.saved, startsWith u w.baseUrl = true) ∧
      (∀ u ∈ s.visitedUrls, startsWith u w.baseUrl = true) ∧
      (∀ t ∈ s.tasks, startsWith t.url w.baseUrl = true) ∧
      (∀ t ∈ s.tasks, t.isRoot = true → t.url = w.baseUrl)) ∧
    (initState w).tasks = [Task.scrape w.baseUrl true] ∧
    (∀ (vis : List JSString) (cur href : JSString) (t : Task),
      linkCallback w vis cur href = some t →
      ∃ foundUrl, w.resolve href cur = some foundUrl ∧ t = Task.linkCheck foundUrl ∧
        startsWith foundUrl w.baseUrl = true) ∧
    (∀ (vis : List JSString) (cur href foundUrl : JSString),
      w.resolve href cur = some foundUrl → startsWith foundUrl w.baseUrl = false →
      linkCallback w vis cur href = none) := by
  refine ⟨?_, rfl, ?_, ?_⟩
  · intro s hr
    have h := inv_reachable hr
    have hv : ∀ u ∈ s.visitedUrls, startsWith u w.baseUrl = true :=
      fun u hu => (h.visited u hu).startsWith
    have hp : ∀ u ∈ pageFetches s, startsWith u w.baseUrl = true :=
      fun u hu => hv u (pageFetches_subset_visited h u hu)
    exact ⟨hp, fun u hu => hp u ((saved_sublist h).subset hu), hv,
      fun t ht => (h.cand t ht).1, h.rootUrl⟩
  · intro vis cur href t ht
    unfold linkCallback at ht
    split at ht
    · simp at ht
    · rename_i v hv
      split at ht
      · rename_i hc
        simp only [Option.some.injEq] at ht
        exact ⟨v, hv, ht.symm, hc.1⟩
      · simp at ht
  · intro vis cur href foundUrl hr hs
    simp [linkCallback, hr, hs]

/-- C5 on the site whose `robots.txt` disallows `/private`, for the run that resumes the oldest
continuation first: every saved URL starts with `baseUrl`. -/
theorem C5_origin_confinement_witness :
    utf16 "https://example.test/b" ∈
        (crawl robotsWorld (runRules robotsWorld) 8 (initState robotsWorld)).saved ∧
      startsWith (utf16 "https://example.test/b") robotsWorld.baseUrl = true :=
  ⟨by decide, ((C5_origin_confinement robotsWorld).1 _ (crawl_reachable 8 Reachable.init)).2.1
    (utf16 "https://example.test/b") (by decide)⟩

/-- C4. Let the rules of the run reject `u` (the value of `isUrlAllowed` is `false` or
`undefined`).  Then `scrapeWebpage(u, robotRules)` resumed at line 69 returns at once: nothing
is requested, `visitedUrls` and the directory are unchanged and the other suspended
continuations are left as they are; the callback of `processLinks` resumed at line 59 does not
even call it.  In every state of every run `u` is not in `visitedUrls`, was not requested, has
no fetch scheduled and was not saved, and no file holds content saved for `u`.  On the site
whose `robots.txt` disallows `/private` and whose seed page links to `/private` and `/b`, the
run finishes normally with the seed and `/b` saved and `/private` never requested. -/
theorem C4_robots_compliance (w : World) (u : JSString) :
    (∀ (rules : Option RobotRules) (s : State) (root : Bool),
      truthy (isUrlAllowed rules u) = false →
      scrapeWebpage rules s u root =
        { s with main := if root = true then Outcome.completed else s.main }) ∧
    (∀ (rules : Option RobotRules) (s : State),
      truthy (isUrlAllowed rules u) = false → linkCallbackResumed rules s u = s) ∧
    (truthy (isUrlAllowed (runRules w) u) = false → ∀ s, Reachable w s →
      u ∉ s.visitedUrls ∧ u ∉ pageFetches s ∧ (∀ r, Task.fetch u r ∉ s.tasks) ∧
      u ∉ s.saved ∧
      ∀ e ∈ s.files, ∃ v ∈ s.saved, v ≠ u ∧ e.1 = filename w.caseTables v ∧
        w.get v = some e.2) ∧
    ((crawl robotsWorld (runRules robotsWorld) 8 (initState robotsWorld)).tasks = [] ∧
      (crawl robotsWorld (runRules robotsWorld) 8 (initState robotsWorld)).main
        = Outcome.completed ∧
      (crawl robotsWorld (runRules robotsWorld) 8 (initState robotsWorld)).saved
        = [utf16 "https://example.test/", utf16 "https://example.test/b"] ∧
      (crawl robotsWorld (runRules robotsWorld) 8 (initState robotsWorld)).files.length = 2 ∧
      utf16 "https://example.test/private" ∉
        pageFetches (crawl robotsWorld (runRules robotsWorld) 8 (initState robotsWorld))) := by
  refine ⟨?_, ?_, ?_, by decide⟩
  · intro rules s root hu
    simp [resume, linkCallbackResumed, scrapeWebpage, scrapeWebpageFetched, hu]
  · intro rules s hu
    simp [resume, linkCallbackResumed, scrapeWebpage, scrapeWebpageFetched, hu]
  · intro hu s hr
    have h := inv_reachable hr
    have hv : u ∉ s.visitedUrls := by
      intro hm
      rw [(h.visited u hm).allowed] at hu
      cases hu
    have hp : u ∉ pageFetches s := fun hm => hv (pageFetches_subset_visited h u hm)
    have hs : u ∉ s.saved := fun hm => hp ((saved_sublist h).subset hm)
    refine ⟨hv, hp, fun r ht => hv (fetch_task_fresh h ht).1, hs, ?_⟩
    intro e he
    obtain ⟨v, hvs, hk, hg⟩ := h.files e he
    refine ⟨v, hvs, ?_, hk, hg⟩
    rintro rfl
    exact hs hvs

/-- C4 on the site whose `robots.txt` disallows `/private`: in the finished run `/private` is
neither visited, requested nor saved. -/
theorem C4_robots_compliance_witness :
    truthy (isUrlAllowed (runRules robotsWorld) (utf16 "https://example.test/private")) = false ∧
      utf16 "https://example.test/private" ∉
        (crawl robotsWorld (runRules robotsWorld) 8 (initState robotsWorld)).visitedUrls ∧
      utf16 "https://example.test/private" ∉
        pageFetches (crawl robotsWorld (runRules robotsWorld) 8 (initState robotsWorld)) ∧
      utf16 "https://example.test/private" ∉
        (crawl robotsWorld (runRules robotsWorld) 8 (initState robotsWorld)).saved :=
  ⟨by decide,
    ((C4_robots_compliance robotsWorld (utf16 "https://example.test/private")).2.2.1
      (by decide) _ (crawl_reachable 8 Reachable.init)).1,
    ((C4_robots_compliance robotsWorld (utf16 "https://example.test/private")).2.2.1
      (by decide) _ (crawl_reachable 8 Reachable.init)).2.1,
    ((C4_robots_compliance robotsWorld (utf16 "https://example.test/private")).2.2.1
      (by decide) _ (crawl_reachable 8 Reachable.init)).2.2.2.1⟩

theorem visited_le_card {w : World} {U : List JSString} (hU : Closed w U) {s : State}
    (h : Inv w s) : s.visitedUrls.length ≤ U.toFinset.card := by
  rw [← List.toFinset_card_of_nodup h.nodup]
  apply Finset.card_le_card
  intro u hu
  rw [List.mem_toFinset] at hu ⊢
  exact hU.crawlable (h.visited u hu)

/-- C2. On a finite link graph `U` (the seed, and with each URL every link of its page that
starts with `baseUrl` and is allowed) the crawl started by `startScraping` terminates: no run
of the event loop, in whatever order, takes more than `stepBound w U` steps, a state with a
suspended continuation can always take a step, and the run that resumes the oldest continuation
first has none left after `stepBound w U` steps.  The page requests of a run are pairwise
distinct URLs of `U`, so at most as many as `U` has distinct URLs.  Each call of
`scrapeWebpage` that gets past the test of line 69 adds its URL, a URL of `U` that was not yet
there, to `visitedUrls`. -/
theorem C2_termination (w : World) (U : List JSString) (hU : Closed w U) :
    (∀ (sched : List Nat) (s : State),
      exec w (runRules w) (initState w) sched = some s →
      sched.length ≤ stepBound w U ∧
      (pageFetches s).length ≤ U.toFinset.card ∧ (pageFetches s).Nodup ∧
      (∀ u ∈ pageFetches s, u ∈ U) ∧ (∀ u ∈ s.visitedUrls, u ∈ U)) ∧
    (∀ s, Reachable w s → s.tasks ≠ [] → ∃ s', step w (runRules w) s 0 = some s') ∧
    (crawl w (runRules w) (stepBound w U) (initState w)).tasks = [] ∧
    (∀ (s s' : State) (i : Nat) (u : JSString) (root : Bool), Reachable w s →
      s.tasks.get? i = some (Task.scrape u root) →
      truthy (isUrlAllowed (runRules w) u) = true → u ∉ s.visitedUrls →
      step w (runRules w) s i = some s' →
      s'.visitedUrls = s.visitedUrls ++ [u] ∧ u ∈ U ∧
        s'.visitedUrls.length = s.visitedUrls.length + 1 ∧
        s'.visitedUrls.length ≤ U.toFinset.card) := by
  refine ⟨?_, ?_, ?_, ?_⟩
  · intro sched s he
    have hr := exec_reachable sched Reachable.init he
    have h := inv_reachable hr
    have hp := potential_exec hU sched Reachable.init he
    rw [potential_init] at hp
    have hv : ∀ u ∈ s.visitedUrls, u ∈ U := fun u hu => hU.crawlable (h.visited u hu)
    refine ⟨by omega, ?_, pageFetches_nodup h,
      fun u hu => hv u (pageFetches_subset_visited h u hu), hv⟩
    have h1 : (pageFetches s).length ≤ s.visitedUrls.length := by
      rw [← h.perm.length_eq, List.length_append]
      omega
    exact le_trans h1 (visited_le_card hU h)
  · exact fun s _ hne => step_zero_of_ne_nil w (runRules w) s hne
  · exact crawl_done hU (stepBound w U) Reachable.init (le_of_eq (potential_init w U))
  · intro s s' i u root hr ht ha hu hs
    have h := inv_reachable hr
    have h' := inv_step h hs
    obtain ⟨t, ht', rfl⟩ := step_eq hs
    rw [ht] at ht'
    cases ht'
    have e : (resume w (runRules w) ⟨s.visitedUrls, s.tasks.eraseIdx i, s.requests, s.files,
        s.saved, s.main, s.unhandled⟩ (Task.scrape u root)).visitedUrls
        = s.visitedUrls ++ [u] := by
      simp [resume, linkCallbackResumed, scrapeWebpage, scrapeWebpageFetched, ha, hu]
    have hm : Task.scrape u root ∈ s.tasks := List.get?_mem ht
    refine ⟨e, hU.crawlable ((h.cand _ hm).2 ha), ?_, visited_le_card hU h'⟩
    rw [e, List.length_append]
    rfl

/-- C2 on the site whose seed page links to `/b` and to itself: the run that resumes the oldest
continuation first ends within the bound. -/
theorem C2_termination_witness :
    Closed dedupWorld [utf16 "https://example.test/", utf16 "https://example.test/b"] ∧
      (crawl dedupWorld (runRules dedupWorld)
        (stepBound dedupWorld [utf16 "https://example.test/", utf16 "https://example.test/b"])
        (initState dedupWorld)).tasks = [] :=
  ⟨dedupWorld_closed, (C2_termination dedupWorld _ dedupWorld_closed).2.2.1⟩

end ShoreLine
